import Mathlib

/-!
Verification of the pandas `Series` core (pandas/core/series.py) against its
specification.  A `Series` is shallowly embedded as a value buffer paired with
a label index: values are `List (Option V)` where `none` is the missing
sentinel (NaN), labels are `List L`, and the optional `name` is carried for
provenance.  Operations are translated from the source; the external Label
Index collaborator (pandas/core/index.py, not part of this core) is modelled
from the spec where noted.
-/

namespace PandasSeries

open List

/-- A pandas Series: a value buffer paired with a label index and an optional
name.  Missing values (NaN) are represented by `none`. -/
structure Series (L : Type) (V : Type) where
  values : List (Option V)
  index : List L
  name : Option String
deriving DecidableEq

variable {L V W : Type}

/-- pandas `isnull` on one element: `none` is the missing sentinel. -/
def isnullE (x : Option V) : Bool := x.isNone

/-- `_maybe_match_name` from series.py: the result carries the shared name when
both operands agree, and is unnamed otherwise. -/
def maybeMatchName (a b : Series L V) : Option String :=
  if a.name = b.name then a.name else none

/-- Modelled from the spec: the Label Index collaborator's position lookup
(`get_position(label) -> position | NotFound`); the first matching position. -/
def posOf [DecidableEq L] (xs : List L) (l : L) : Option Nat :=
  xs.findIdx? (fun x => decide (x = l))

/-- Gather one element through an optional position; an absent position (the
`-1` indexer entry) and an out-of-range position both give missing. -/
def fetch (vals : List (Option V)) (i? : Option Nat) : Option V :=
  match i? with
  | none => none
  | some i => (vals.get? i).getD none

/-- Modelled from the spec: `com.take_1d` — gather values through an indexer
array, where an absent entry becomes the missing sentinel. -/
def take1d (vals : List (Option V)) (indexer : List (Option Nat)) : List (Option V) :=
  indexer.map (fetch vals)

/-- The value a Series associates with a label: missing when the label is
absent from the index or stores the missing sentinel. -/
def Series.lookup [DecidableEq L] (s : Series L V) (l : L) : Option V :=
  fetch s.values (posOf s.index l)

/-- The Aligned Array invariant from the spec: the value buffer and the label
index have equal length. -/
def lenInvariant (s : Series L V) : Prop := s.values.length = s.index.length

/-- Modelled from the spec: Label Index union (`Index.__add__`) — "builds the
union of labels"; left labels first, then the unseen right labels. -/
def indexUnion [DecidableEq L] (la lb : List L) : List L :=
  la ++ lb.filter (fun x => !(decide (x ∈ la)))

/-- Modelled from the spec: the outer-join label ordering — "union sorted by
label ordering rules of the Label Index".  A stable sort is used; the stable
sort result is unique, so this matches the source's mergesort. -/
def sortedUnion [DecidableEq L] [LinearOrder L] (la lb : List L) : List L :=
  (indexUnion la lb).insertionSort (· ≤ ·)

/-- Modelled from the spec: the Label Index's
`join(other, how='outer') -> (joined_labels, left_positions, right_positions)`;
equal indexes short-circuit with no indexer arrays. -/
def joinOuter [DecidableEq L] [LinearOrder L] (la lb : List L) :
    List L × Option (List (Option Nat)) × Option (List (Option Nat)) :=
  if la = lb then (la, none, none)
  else
    let u := sortedUnion la lb
    (u, some (u.map (posOf la)), some (u.map (posOf lb)))

/-- `Series._reindex_indexer` from series.py: no indexer means the index is
unchanged (self, or an observably equal shallow copy); otherwise gather the
values through the indexer onto the new index. -/
def Series.reindexIndexer (s : Series L V) (newIndex : List L)
    (indexer : Option (List (Option Nat))) (_copy : Bool) : Series L V :=
  match indexer with
  | none => s
  | some idx => { values := take1d s.values idx, index := newIndex, name := s.name }

/-- `Series.align` with `join='outer'` and no fill, from series.py. -/
def Series.alignOuter [DecidableEq L] [LinearOrder L] (a b : Series L V) : Series L V × Series L V :=
  let j := joinOuter a.index b.index
  (a.reindexIndexer j.1 j.2.1 true, b.reindexIndexer j.1 j.2.2 true)

/-- The `na_op` of `_arith_method` from series.py: elementwise operation with
missing-value propagation (native NaN arithmetic and the masked fallback loop
agree on this semantics). -/
def liftNA (f : V → V → V) : Option V → Option V → Option V
  | some x, some y => some (f x y)
  | _, _ => none

/-- The elementwise step of `Series._binop` from series.py: without a fill
value just the missing-propagating operator; with one, compute the missing
masks, gate by their exclusive-or, substitute the fill value on the missing
side where exactly one side is missing, then apply the operator. -/
def stepFn (f : V → V → V) (fill : Option V) (x y : Option V) : Option V :=
  match fill with
  | none => liftNA f x y
  | some fv =>
    let xm := isnullE x
    let ym := isnullE y
    let m := xm != ym
    let xv := if xm && m then some fv else x
    let yv := if ym && m then some fv else y
    liftNA f xv yv

/-- `Series._binop` from series.py: outer-align unless the indexes are already
equal; apply the (fill-gated) elementwise step; match the names. -/
def Series.binop [DecidableEq L] [LinearOrder L] (a b : Series L V) (f : V → V → V)
    (fill : Option V) : Series L V :=
  let p := if a.index = b.index then (a, b) else a.alignOuter b
  { values := List.zipWith (stepFn f fill) p.1.values p.2.values
    index := p.1.index
    name := maybeMatchName a b }

/-- The `_arith_method` wrapper (Series-with-Series branch) from series.py:
a fast path pairing the buffers positionally when the indexes are equal,
otherwise an outer join with buffers gathered through the position maps. -/
def Series.arithMethod [DecidableEq L] [LinearOrder L] (a b : Series L V) (f : V → V → V) : Series L V :=
  if a.index = b.index then
    { values := List.zipWith (liftNA f) a.values b.values
      index := a.index
      name := maybeMatchName a b }
  else
    let j := joinOuter a.index b.index
    let lv := match j.2.1 with | none => a.values | some ix => take1d a.values ix
    let rv := match j.2.2 with | none => b.values | some ix => take1d b.values ix
    { values := List.zipWith (liftNA f) lv rv, index := j.1, name := maybeMatchName a b }

/-- Modelled from the spec, for comparison with the fast path (refinement
claim): the general outer-join alignment path of an arithmetic operator —
sorted-union join, position maps, gather through them, elementwise operator,
name matching — computed without the equal-index shortcut. -/
def Series.arithGeneralSpec [DecidableEq L] [LinearOrder L] (a b : Series L V) (f : V → V → V) : Series L V :=
  let u := sortedUnion a.index b.index
  { values := List.zipWith (liftNA f)
      (take1d a.values (u.map (posOf a.index)))
      (take1d b.values (u.map (posOf b.index)))
    index := u
    name := maybeMatchName a b }

/-- The `_comp_method` wrapper (Series-with-Series branch) from series.py: no
alignment, elementwise comparison of the buffers on self's index, matched
name.  The elementwise kernel is abstracted as `f`. -/
def Series.compMethod [DecidableEq L] (a b : Series L V)
    (f : Option V → Option V → Option Bool) : Series L Bool :=
  { values := List.zipWith f a.values b.values
    index := a.index
    name := maybeMatchName a b }

/-- The `_bool_method` wrapper (Series-with-Series branch) from series.py. -/
def Series.boolMethod [DecidableEq L] (a b : Series L V)
    (f : Option V → Option V → Option V) : Series L V :=
  { values := List.zipWith f a.values b.values
    index := a.index
    name := maybeMatchName a b }

/-- `Series.get(label, default)` from series.py: the stored value at a present
label (missing stays missing), the default at an absent one. -/
def Series.get [DecidableEq L] (s : Series L V) (l : L) (dflt : Option V) : Option V :=
  match posOf s.index l with
  | none => dflt
  | some i => (s.values.get? i).getD none

/-- `Series.combine` from series.py: union of the labels, then per label apply
`func` to get-or-fill from each side. -/
def Series.combine [DecidableEq L] (a b : Series L V)
    (f : Option V → Option V → Option V) (fill : Option V) : Series L V :=
  let u := indexUnion a.index b.index
  { values := u.map (fun l => f (a.get l fill) (b.get l fill))
    index := u
    name := maybeMatchName a b }

/-- `Series.reindex` from series.py (flat index, `method=None`, missing fill):
an index equal in content to the current one short-circuits to self or to an
observably equal shallow copy; an empty source gives an all-missing buffer;
otherwise gather through the Label Index's target positions (the Index's
`reindex`/`get_indexer`, modelled from the spec as per-label position lookup). -/
def Series.reindex [DecidableEq L] (s : Series L V) (target : List L) (copy : Bool) :
    Series L V :=
  if s.index = target then (if copy then { s with index := target } else s)
  else if s.index.length = 0 then
    { values := target.map (fun _ => none), index := target, name := s.name }
  else
    { values := take1d s.values (target.map (posOf s.index))
      index := target
      name := s.name }

/-- `Series.combine_first` from series.py: union-reindex both sides, then
`np.where(isnull(this), other, this)`. -/
def Series.combine_first [DecidableEq L] (a b : Series L V) : Series L V :=
  let u := indexUnion a.index b.index
  let ta := a.reindex u false
  let tb := b.reindex u false
  { values := List.zipWith (fun t o => if isnullE t then o else t) ta.values tb.values
    index := u
    name := maybeMatchName a b }

/-- The rearrangement at the heart of `Series.order` from series.py, on
label-value pairs: split off the missing values (`bad` keeps original order),
stably sort the non-missing values ascending — the source requests mergesort;
any stable sort produces the same list — reverse for descending, and place the
missing values at the end or the beginning per `na_last`. -/
def orderArranged [LinearOrder V] (pairs : List (L × Option V))
    (naLast ascending : Bool) : List (L × Option V) :=
  let good : List (L × V) := pairs.filterMap (fun p => p.2.map (fun v => (p.1, v)))
  let bad : List (L × Option V) := pairs.filter (fun p => isnullE p.2)
  let sg := good.insertionSort (fun p q => p.2 ≤ q.2)
  let sg2 := if ascending then sg else sg.reverse
  let sgPairs : List (L × Option V) := sg2.map (fun p => (p.1, some p.2))
  if naLast then sgPairs ++ bad else bad ++ sgPairs

/-- `Series.order` from series.py: sort by value keeping the label-value link
(the gathered index tracks the same permutation as the values). -/
def Series.order [LinearOrder V] (s : Series L V) (naLast ascending : Bool) : Series L V :=
  { values := (orderArranged (s.index.zip s.values) naLast ascending).map Prod.snd
    index := (orderArranged (s.index.zip s.values) naLast ascending).map Prod.fst
    name := s.name }

/-- `Series.sort_index` (flat-index branch) from series.py; the Label Index's
`order` is modelled from the spec (`sort_by_label`) as a stable sort by
label. -/
def Series.sort_index [DecidableEq L] [LinearOrder L] (s : Series L V) (ascending : Bool) : Series L V :=
  let pairs := s.index.zip s.values
  let sp := pairs.insertionSort (fun p q => p.1 ≤ q.1)
  let sp2 := if ascending then sp else sp.reverse
  { values := sp2.map Prod.snd, index := sp2.map Prod.fst, name := s.name }

/-- `Series.shift` (no frequency offset) from series.py: values move by
`periods` positions against the unchanged index and the vacated positions
become missing. -/
def Series.shift (s : Series L V) (periods : Int) : Series L V :=
  if periods = 0 then s
  else if 0 < periods then
    { s with values := List.replicate (min periods.toNat s.values.length) none
        ++ s.values.take (s.values.length - periods.toNat) }
  else
    { s with values := s.values.drop (-periods).toNat
        ++ List.replicate (min (-periods).toNat s.values.length) none }

/-- Gather list elements at the given positions; `none` when any position is
out of range (numpy `take` raises there). -/
def gatherAt (xs : List W) : List Nat → Option (List W)
  | [] => some []
  | i :: is =>
    match xs.get? i, gatherAt xs is with
    | some a, some rest => some (a :: rest)
    | _, _ => none

/-- `Series.take` from series.py: positional gather of both the labels and the
values. -/
def Series.takeOp (s : Series L V) (idx : List Nat) : Option (Series L V) :=
  match gatherAt s.index idx, gatherAt s.values idx with
  | some il, some vl => some { values := vl, index := il, name := s.name }
  | _, _ => none

/-- `Series.dropna` (`remove_na`) from series.py: keep the label-value pairs
whose value is present. -/
def Series.dropna (s : Series L V) : Series L V :=
  let pairs := (s.index.zip s.values).filter (fun p => !(isnullE p.2))
  { values := pairs.map Prod.snd, index := pairs.map Prod.fst, name := s.name }

/-- `Series.map` (function argument, `na_action=None`) from series.py:
elementwise transform on the buffer, index and name unchanged. -/
def Series.mapOp (s : Series L V) (f : Option V → Option W) : Series L W :=
  { values := s.values.map f, index := s.index, name := s.name }

/-- `Series.apply` (elementwise fallback branch) from series.py. -/
def Series.applyOp (s : Series L V) (f : Option V → Option W) : Series L W :=
  { values := s.values.map f, index := s.index, name := s.name }

/-- The declared element kinds of a value buffer. -/
inductive DType
  | float64
  | int64
  | boolKind
  | datetime64
  | objKind
deriving DecidableEq

/-- pandas `is_integer_dtype` restricted to the declared element kinds. -/
def isIntegerDtype : DType → Bool
  | DType.int64 => true
  | _ => false

/-- `Series._can_hold_na` from series.py: `not is_integer_dtype(self.dtype)`. -/
def canHoldNA (dt : DType) : Bool := !(isIntegerDtype dt)

/-- `Series.fillna` (value branch) from series.py, with the buffer's dtype
passed alongside: a kind that cannot hold missing returns the series unchanged
(a copy, or self when inplace); otherwise the missing positions take the value
(`np.putmask`).  The dtype is unchanged on both branches. -/
def Series.fillnaValue (dt : DType) (s : Series L V) (v : V) : DType × Series L V :=
  if !(canHoldNA dt) then (dt, s)
  else (dt, { s with
    values := s.values.map (fun x => match x with | none => some v | some a => some a) })

/-- `Series.set_value` from series.py: a present label writes the value in
place at its position and hands back the receiver; an absent label builds a
new series with the label and value appended (the Index's
`insert(len(self), label)` is modelled from the spec as an append). -/
def Series.set_value [DecidableEq L] (s : Series L V) (l : L) (v : V) : Series L V :=
  match posOf s.index l with
  | some i => { s with values := s.values.set i (some v) }
  | none => { values := s.values ++ [some v], index := s.index ++ [l], name := s.name }

/-- A dynamically typed key or label element (integer or string) for the
subscript dispatch of `Series._get_with`. -/
inductive PyVal
  | pint (n : Int)
  | pstr (t : String)
deriving DecidableEq

/-- Modelled from the spec: `lib.infer_dtype` and `Index.inferred_type` — a
nonempty all-integer sequence infers as integer. -/
def inferIsInteger (xs : List PyVal) : Bool :=
  !xs.isEmpty && xs.all (fun x => match x with | PyVal.pint _ => true | _ => false)

/-- The integer payloads of a key list. -/
def keyInts (xs : List PyVal) : List Int :=
  xs.filterMap (fun x => match x with | PyVal.pint n => some n | _ => none)

/-- numpy fancy positional indexing of one position: negative positions wrap
from the end; `none` when out of range after wrapping. -/
def wrapPos (n : Nat) (i : Int) : Option Nat :=
  let j := if i < 0 then i + n else i
  if 0 ≤ j ∧ j < (n : Int) then some j.toNat else none

/-- `Series._get_values` with an integer position list from series.py: gather
both buffers positionally; `none` models the raised IndexError when a
position is out of bounds. -/
def Series.getValuesPos (s : Series PyVal V) (key : List Int) : Option (Series PyVal V) :=
  let vl? := key.foldr
    (fun i acc => match (wrapPos s.values.length i).bind (fun j => s.values.get? j), acc with
      | some a, some rest => some (a :: rest)
      | _, _ => none) (some [])
  let il? := key.foldr
    (fun i acc => match (wrapPos s.index.length i).bind (fun j => s.index.get? j), acc with
      | some a, some rest => some (a :: rest)
      | _, _ => none) (some [])
  match vl?, il? with
  | some vl, some il => some { values := vl, index := il, name := s.name }
  | _, _ => none

/-- `Series._get_with` (sequence-key branch) from series.py: an all-integer key
list is resolved as labels through a reindex exactly when the index itself is
integer-typed, and gathered positionally otherwise; any other key list is a
label list and reindexes.  Boolean-mask keys are consumed before this dispatch
and are outside the modelled key domain. -/
def Series.getWith (s : Series PyVal V) (key : List PyVal) : Option (Series PyVal V) :=
  if inferIsInteger key then
    if inferIsInteger s.index then some (s.reindex key true)
    else s.getValuesPos (keyInts key)
  else some (s.reindex key true)

/-! ### Basic lemmas about the Label Index model -/

theorem posOf_eq_none_iff [DecidableEq L] {xs : List L} {l : L} :
    posOf xs l = none ↔ l ∉ xs := by
  simp only [posOf, List.findIdx?_eq_none_iff, decide_eq_false_iff_not]
  constructor
  · intro h hl
    exact h l hl rfl
  · intro h x hx he
    exact h (he ▸ hx)

theorem posOf_lt [DecidableEq L] {xs : List L} {l : L} {i : Nat}
    (h : posOf xs l = some i) : i < xs.length := by
  rw [posOf, List.findIdx?_eq_some_iff_getElem] at h
  obtain ⟨hlt, -, -⟩ := h
  exact hlt

theorem posOf_getElem [DecidableEq L] {xs : List L} {l : L} {i : Nat}
    (h : posOf xs l = some i) : xs[i]? = some l := by
  rw [posOf, List.findIdx?_eq_some_iff_getElem] at h
  obtain ⟨hlt, hp, -⟩ := h
  rw [List.getElem?_eq_getElem hlt]
  simpa using hp

theorem posOf_mem [DecidableEq L] {xs : List L} {l : L} {i : Nat}
    (h : posOf xs l = some i) : l ∈ xs := by
  by_contra hm
  have hn := posOf_eq_none_iff.mpr hm
  rw [h] at hn
  exact Option.noConfusion hn

theorem posOf_of_nodup [DecidableEq L] {xs : List L} {l : L} {k : Nat}
    (hnd : xs.Nodup) (hk : xs[k]? = some l) : posOf xs l = some k := by
  rw [List.getElem?_eq_some] at hk
  obtain ⟨hlt, hval⟩ := hk
  rw [posOf, List.findIdx?_eq_some_iff_getElem]
  refine ⟨hlt, by simp [hval], ?_⟩
  intro j hj
  simp only [decide_eq_true_eq]
  intro hje
  have : j = k := hnd.getElem_inj_iff.mp (hje.trans hval.symm)
  omega

theorem mem_indexUnion [DecidableEq L] {la lb : List L} {l : L} :
    l ∈ indexUnion la lb ↔ l ∈ la ∨ l ∈ lb := by
  simp only [indexUnion, List.mem_append, List.mem_filter, Bool.not_eq_true', decide_eq_false_iff_not]
  constructor
  · rintro (h | ⟨h, -⟩)
    · exact Or.inl h
    · exact Or.inr h
  · rintro (h | h)
    · exact Or.inl h
    · by_cases ha : l ∈ la
      · exact Or.inl ha
      · exact Or.inr ⟨h, ha⟩

theorem mem_sortedUnion [DecidableEq L] [LinearOrder L] {la lb : List L} {l : L} :
    l ∈ sortedUnion la lb ↔ l ∈ la ∨ l ∈ lb := by
  rw [sortedUnion, List.mem_insertionSort]
  exact mem_indexUnion

/-! ### Lemmas about lookup through gathered buffers -/

theorem take1d_map_posOf [DecidableEq L] (s : Series L V) (j : List L) :
    take1d s.values (j.map (posOf s.index)) = j.map s.lookup := by
  simp only [take1d, List.map_map]
  rfl

/-- A label absent from the index looks up as missing. -/
theorem lookup_not_mem [DecidableEq L] {s : Series L V} {l : L} (h : l ∉ s.index) :
    s.lookup l = none := by
  unfold Series.lookup
  rw [posOf_eq_none_iff.mpr h]
  rfl

/-- Fetching from a buffer gathered label-by-label from `s` agrees with `s`'s
own lookup on the gathered labels. -/
theorem fetch_mapLookup [DecidableEq L] (s : Series L V) (j : List L) (l : L) :
    fetch (j.map s.lookup) (posOf j l)
      = if l ∈ j then s.lookup l else none := by
  cases hp : posOf j l with
  | none =>
    have hm := posOf_eq_none_iff.mp hp
    simp [fetch, hm]
  | some k =>
    have hm := posOf_mem hp
    have hjk := posOf_getElem hp
    simp only [fetch, List.get?_eq_getElem?, List.getElem?_map, hjk, Option.map_some',
      Option.getD_some, if_pos hm]

/-- Fetching from the zip of two label-by-label gathered buffers computes the
elementwise combination of the two lookups. -/
theorem fetch_zip_mapLookup [DecidableEq L] (a b : Series L V) (j : List L)
    (g : Option V → Option V → Option V) (l : L) :
    fetch (List.zipWith g (j.map a.lookup) (j.map b.lookup)) (posOf j l)
      = if l ∈ j then g (a.lookup l) (b.lookup l) else none := by
  cases hp : posOf j l with
  | none =>
    have hm := posOf_eq_none_iff.mp hp
    simp [fetch, hm]
  | some k =>
    have hm := posOf_mem hp
    have hjk := posOf_getElem hp
    simp only [fetch, List.get?_eq_getElem?, List.getElem?_zipWith, List.getElem?_map, hjk,
      Option.map_some', Option.getD_some, if_pos hm]

/-- Fetching from the positional zip of the two raw buffers, when the two
indexes are equal lists, computes the elementwise combination of the two
lookups: positional pairing is label pairing. -/
theorem fetch_zip_values [DecidableEq L] (a b : Series L V)
    (g : Option V → Option V → Option V) (l : L)
    (hA : a.values.length = a.index.length)
    (hB : b.values.length = b.index.length)
    (he : a.index = b.index) :
    fetch (List.zipWith g a.values b.values) (posOf a.index l)
      = if l ∈ a.index then g (a.lookup l) (b.lookup l) else none := by
  cases hp : posOf a.index l with
  | none =>
    have hm := posOf_eq_none_iff.mp hp
    simp [fetch, hm]
  | some k =>
    have hm := posOf_mem hp
    have hlt : k < a.index.length := posOf_lt hp
    have hltA : k < a.values.length := by omega
    have hltB : k < b.values.length := by rw [hB, ← he]; exact hlt
    have hpb : posOf b.index l = some k := by rw [← he]; exact hp
    simp only [fetch, List.get?_eq_getElem?, List.getElem?_zipWith, hp, hpb,
      List.getElem?_eq_getElem hltA, List.getElem?_eq_getElem hltB, Option.getD_some, if_pos hm]
    unfold Series.lookup
    rw [hp, hpb]
    simp [fetch, List.getElem?_eq_getElem hltA, List.getElem?_eq_getElem hltB]

/-- With unique labels and matching lengths, the raw buffer is the
label-by-label gather of the series' own lookups. -/
theorem values_eq_map_lookup [DecidableEq L] (s : Series L V)
    (hlen : s.values.length = s.index.length) (hnd : s.index.Nodup) :
    s.values = s.index.map s.lookup := by
  apply List.ext_getElem?
  intro n
  rw [List.getElem?_map]
  by_cases hn : n < s.index.length
  · have hidx : s.index[n]? = some s.index[n] := List.getElem?_eq_getElem hn
    have hpos : posOf s.index s.index[n] = some n := posOf_of_nodup hnd hidx
    have hnv : n < s.values.length := by omega
    rw [hidx, Option.map_some']
    unfold Series.lookup
    rw [hpos]
    simp [fetch, List.getElem?_eq_getElem hnv]
  · have h1 : s.values[n]? = none := List.getElem?_eq_none (by omega)
    have h2 : s.index[n]? = none := List.getElem?_eq_none (by omega)
    rw [h1, h2]
    rfl

/-- Characterization of `Series.reindex` for a unique-labelled source: the
result's index is the target and its buffer gathers the source's lookups. -/
theorem reindex_result [DecidableEq L] (s : Series L V) (j : List L) (c : Bool)
    (hlen : s.values.length = s.index.length) (hnd : s.index.Nodup) :
    (s.reindex j c).values = j.map s.lookup ∧ (s.reindex j c).index = j := by
  unfold Series.reindex
  by_cases he : s.index = j
  · rw [if_pos he]
    cases c
    · exact ⟨he ▸ values_eq_map_lookup s hlen hnd, he⟩
    · exact ⟨he ▸ values_eq_map_lookup s hlen hnd, rfl⟩
  · rw [if_neg he]
    by_cases h0 : s.index.length = 0
    · rw [if_pos h0]
      refine ⟨?_, rfl⟩
      have hsi : s.index = [] := List.length_eq_zero.mp h0
      apply List.map_congr_left
      intro x hx
      exact (lookup_not_mem (by rw [hsi]; exact List.not_mem_nil x)).symm
    · rw [if_neg h0]
      exact ⟨take1d_map_posOf s j, rfl⟩

/-- Lookup after a reindex: the source's lookup on target labels, missing on
labels outside the target. -/
theorem reindex_lookup [DecidableEq L] (s : Series L V) (j : List L) (c : Bool)
    (hlen : s.values.length = s.index.length) (hnd : s.index.Nodup) (l : L) :
    (s.reindex j c).lookup l = if l ∈ j then s.lookup l else none := by
  obtain ⟨hv, hi⟩ := reindex_result s j c hlen hnd
  unfold Series.lookup
  rw [hv, hi]
  exact fetch_mapLookup s j l

/-! ### Equation lemmas for the aligned binary operations -/

theorem binop_of_index_eq [DecidableEq L] [LinearOrder L] (a b : Series L V) (f : V → V → V)
    (fill : Option V) (hie : a.index = b.index) :
    a.binop b f fill = Series.mk (List.zipWith (stepFn f fill) a.values b.values)
      a.index (maybeMatchName a b) := by
  unfold Series.binop
  rw [if_pos hie]

theorem alignOuter_of_index_ne [DecidableEq L] [LinearOrder L] (a b : Series L V)
    (hie : ¬a.index = b.index) :
    a.alignOuter b =
      (Series.mk ((sortedUnion a.index b.index).map a.lookup)
        (sortedUnion a.index b.index) a.name,
       Series.mk ((sortedUnion a.index b.index).map b.lookup)
        (sortedUnion a.index b.index) b.name) := by
  unfold Series.alignOuter joinOuter Series.reindexIndexer
  rw [if_neg hie]
  dsimp only
  rw [take1d_map_posOf, take1d_map_posOf]

theorem binop_of_index_ne [DecidableEq L] [LinearOrder L] (a b : Series L V) (f : V → V → V)
    (fill : Option V) (hie : ¬a.index = b.index) :
    a.binop b f fill = Series.mk
      (List.zipWith (stepFn f fill)
        ((sortedUnion a.index b.index).map a.lookup)
        ((sortedUnion a.index b.index).map b.lookup))
      (sortedUnion a.index b.index) (maybeMatchName a b) := by
  unfold Series.binop
  rw [if_neg hie, alignOuter_of_index_ne a b hie]

theorem arithMethod_of_index_eq [DecidableEq L] [LinearOrder L] (a b : Series L V) (f : V → V → V)
    (hie : a.index = b.index) :
    a.arithMethod b f = Series.mk (List.zipWith (liftNA f) a.values b.values)
      a.index (maybeMatchName a b) := by
  unfold Series.arithMethod
  rw [if_pos hie]

theorem arithGeneralSpec_eq [DecidableEq L] [LinearOrder L] (a b : Series L V) (f : V → V → V) :
    a.arithGeneralSpec b f = Series.mk
      (List.zipWith (liftNA f)
        ((sortedUnion a.index b.index).map a.lookup)
        ((sortedUnion a.index b.index).map b.lookup))
      (sortedUnion a.index b.index) (maybeMatchName a b) := by
  unfold Series.arithGeneralSpec
  simp only [take1d_map_posOf]

/-- The fill-gated step with a fill value, written as the four-way case split
of the claim. -/
theorem stepFn_some_eq (f : V → V → V) (v : V) (x y : Option V) :
    stepFn f (some v) x y = (match x, y with
      | some xx, some yy => some (f xx yy)
      | some xx, none => some (f xx v)
      | none, some yy => some (f v yy)
      | none, none => none) := by
  cases x <;> cases y <;> rfl

/-! ### Claim theorems -/

/-- C1: with a non-null fill value, `_binop` outer-aligns the two series, and
at every label the result is: both sides present — the operator applied to the
two values; exactly one side missing — the operator applied with the fill
value substituted on the missing side; both sides missing — missing.  The
result's labels are exactly the union of the two label sets. -/
theorem claim_C1_binop_fill_xor [DecidableEq L] [LinearOrder L] (a b : Series L V)
    (f : V → V → V) (v : V)
    (hA : a.values.length = a.index.length)
    (hB : b.values.length = b.index.length) :
    (∀ l x y, a.lookup l = some x → b.lookup l = some y →
      (a.binop b f (some v)).lookup l = some (f x y))
    ∧ (∀ l x, a.lookup l = some x → b.lookup l = none →
      (a.binop b f (some v)).lookup l = some (f x v))
    ∧ (∀ l y, a.lookup l = none → b.lookup l = some y →
      (a.binop b f (some v)).lookup l = some (f v y))
    ∧ (∀ l, a.lookup l = none → b.lookup l = none →
      (a.binop b f (some v)).lookup l = none)
    ∧ (∀ l, l ∈ (a.binop b f (some v)).index ↔ (l ∈ a.index ∨ l ∈ b.index)) := by
  have key : ∀ l, (a.binop b f (some v)).lookup l
      = stepFn f (some v) (a.lookup l) (b.lookup l) := by
    intro l
    by_cases hie : a.index = b.index
    · have hbl : (a.binop b f (some v)).lookup l
          = if l ∈ a.index then stepFn f (some v) (a.lookup l) (b.lookup l) else none := by
        rw [binop_of_index_eq a b f (some v) hie]
        exact fetch_zip_values a b _ l hA hB hie
      rw [hbl]
      by_cases hm : l ∈ a.index
      · rw [if_pos hm]
      · rw [if_neg hm, lookup_not_mem hm, lookup_not_mem (hie ▸ hm)]
        rfl
    · have hbl : (a.binop b f (some v)).lookup l
          = if l ∈ sortedUnion a.index b.index
            then stepFn f (some v) (a.lookup l) (b.lookup l) else none := by
        rw [binop_of_index_ne a b f (some v) hie]
        exact fetch_zip_mapLookup a b _ _ l
      rw [hbl]
      by_cases hm : l ∈ sortedUnion a.index b.index
      · rw [if_pos hm]
      · rw [if_neg hm]
        rw [mem_sortedUnion] at hm
        push_neg at hm
        rw [lookup_not_mem hm.1, lookup_not_mem hm.2]
        rfl
  refine ⟨?_, ?_, ?_, ?_, ?_⟩
  · intro l x y hx hy
    rw [key l, hx, hy]
    rfl
  · intro l x hx hy
    rw [key l, hx, hy]
    rfl
  · intro l y hx hy
    rw [key l, hx, hy]
    rfl
  · intro l hx hy
    rw [key l, hx, hy]
    rfl
  · intro l
    by_cases hie : a.index = b.index
    · rw [binop_of_index_eq a b f (some v) hie]
      show l ∈ a.index ↔ l ∈ a.index ∨ l ∈ b.index
      rw [hie]
      tauto
    · rw [binop_of_index_ne a b f (some v) hie]
      show l ∈ sortedUnion a.index b.index ↔ l ∈ a.index ∨ l ∈ b.index
      exact mem_sortedUnion

/-- Witness for C1 at the spec's concrete scenario
`A = [x: 1, y: missing]`, `B = [x: missing, y: 2]`, `f = add`, fill 0,
with labels x, y encoded as 0, 1: the result is `[x: 1, y: 2]`. -/
theorem claim_C1_binop_fill_xor_witness :
    (Series.mk [some (1:Int), none] [(0:Nat), 1] none).values.length
        = (Series.mk [some (1:Int), none] [(0:Nat), 1] none).index.length
    ∧ (Series.mk [none, some (2:Int)] [(0:Nat), 1] none).values.length
        = (Series.mk [none, some (2:Int)] [(0:Nat), 1] none).index.length
    ∧ ((Series.mk [some (1:Int), none] [(0:Nat), 1] none).binop
          (Series.mk [none, some (2:Int)] [(0:Nat), 1] none) (· + ·) (some 0)).lookup 0
        = some 1
    ∧ ((Series.mk [some (1:Int), none] [(0:Nat), 1] none).binop
          (Series.mk [none, some (2:Int)] [(0:Nat), 1] none) (· + ·) (some 0)).lookup 1
        = some 2 := by
  have h := claim_C1_binop_fill_xor (Series.mk [some (1:Int), none] [(0:Nat), 1] none)
    (Series.mk [none, some (2:Int)] [(0:Nat), 1] none) (· + ·) 0 rfl rfl
  refine ⟨rfl, rfl, ?_, ?_⟩
  · simpa using h.2.1 0 1 (by decide) (by decide)
  · simpa using h.2.2.1 1 2 (by decide) (by decide)

/-- C3: when the two indexes are equal in content, the fast path that skips
the join (positionally pairing on A's index) produces, label for label and
value for value, the same series the general outer-join alignment path would:
every label looks up to the same value and the label sets coincide. -/
theorem claim_C3_fast_path_refines_join [DecidableEq L] [LinearOrder L] (a b : Series L V)
    (f : V → V → V)
    (hA : a.values.length = a.index.length)
    (hB : b.values.length = b.index.length)
    (he : a.index = b.index) :
    (∀ l, (a.arithMethod b f).lookup l = (a.arithGeneralSpec b f).lookup l)
    ∧ (∀ l, l ∈ (a.arithMethod b f).index ↔ l ∈ (a.arithGeneralSpec b f).index) := by
  have hmem : ∀ l, l ∈ sortedUnion a.index b.index ↔ l ∈ a.index := by
    intro l
    rw [mem_sortedUnion, he]
    tauto
  constructor
  · intro l
    have hfast : (a.arithMethod b f).lookup l
        = if l ∈ a.index then liftNA f (a.lookup l) (b.lookup l) else none := by
      rw [arithMethod_of_index_eq a b f he]
      exact fetch_zip_values a b _ l hA hB he
    have hjoin : (a.arithGeneralSpec b f).lookup l
        = if l ∈ sortedUnion a.index b.index
          then liftNA f (a.lookup l) (b.lookup l) else none := by
      rw [arithGeneralSpec_eq a b f]
      exact fetch_zip_mapLookup a b _ _ l
    rw [hfast, hjoin]
    by_cases hm : l ∈ a.index
    · rw [if_pos hm, if_pos ((hmem l).mpr hm)]
    · rw [if_neg hm, if_neg (fun hc => hm ((hmem l).mp hc))]
  · intro l
    rw [arithMethod_of_index_eq a b f he, arithGeneralSpec_eq a b f]
    show l ∈ a.index ↔ l ∈ sortedUnion a.index b.index
    exact ((hmem l).symm)

/-- Witness for C3 at concrete equal-index series (index not sorted, so the
join path genuinely reorders). -/
theorem claim_C3_fast_path_refines_join_witness :
    (Series.mk [some (1:Int), some 2] [(5:Nat), 3] none).values.length
        = (Series.mk [some (1:Int), some 2] [(5:Nat), 3] none).index.length
    ∧ (Series.mk [some (10:Int), none] [(5:Nat), 3] none).values.length
        = (Series.mk [some (10:Int), none] [(5:Nat), 3] none).index.length
    ∧ (Series.mk [some (1:Int), some 2] [(5:Nat), 3] none).index
        = (Series.mk [some (10:Int), none] [(5:Nat), 3] none).index
    ∧ ((∀ l, ((Series.mk [some (1:Int), some 2] [(5:Nat), 3] none).arithMethod
          (Series.mk [some (10:Int), none] [(5:Nat), 3] none) (· + ·)).lookup l
        = ((Series.mk [some (1:Int), some 2] [(5:Nat), 3] none).arithGeneralSpec
          (Series.mk [some (10:Int), none] [(5:Nat), 3] none) (· + ·)).lookup l)
      ∧ (∀ l, l ∈ ((Series.mk [some (1:Int), some 2] [(5:Nat), 3] none).arithMethod
            (Series.mk [some (10:Int), none] [(5:Nat), 3] none) (· + ·)).index
          ↔ l ∈ ((Series.mk [some (1:Int), some 2] [(5:Nat), 3] none).arithGeneralSpec
            (Series.mk [some (10:Int), none] [(5:Nat), 3] none) (· + ·)).index))
    ∧ ((Series.mk [some (1:Int), some 2] [(5:Nat), 3] none).arithMethod
          (Series.mk [some (10:Int), none] [(5:Nat), 3] none) (· + ·)).lookup 5
        = some 11
    ∧ ((Series.mk [some (1:Int), some 2] [(5:Nat), 3] none).arithMethod
          (Series.mk [some (10:Int), none] [(5:Nat), 3] none) (· + ·)).lookup 3
        = none :=
  ⟨rfl, rfl, rfl,
    claim_C3_fast_path_refines_join (Series.mk [some (1:Int), some 2] [(5:Nat), 3] none)
      (Series.mk [some (10:Int), none] [(5:Nat), 3] none) (· + ·) rfl rfl rfl,
    by decide, by decide⟩

/-- C4: for every binary combination of two Series (arithmetic, comparison and
boolean operator families, the flexible binop, and combine), the result's name
is A's name when A.name equals B.name and is `none` (unnamed) otherwise. -/
theorem claim_C4_name_propagation [DecidableEq L] [LinearOrder L] (a b : Series L V)
    (f : V → V → V) (g : Option V → Option V → Option Bool)
    (h : Option V → Option V → Option V) (k : Option V → Option V → Option V)
    (fill fv : Option V) :
    (a.arithMethod b f).name = (if a.name = b.name then a.name else none)
    ∧ (a.compMethod b g).name = (if a.name = b.name then a.name else none)
    ∧ (a.boolMethod b h).name = (if a.name = b.name then a.name else none)
    ∧ (a.binop b f fill).name = (if a.name = b.name then a.name else none)
    ∧ (a.combine b k fv).name = (if a.name = b.name then a.name else none) := by
  refine ⟨?_, rfl, rfl, rfl, rfl⟩
  by_cases hie : a.index = b.index <;> simp [Series.arithMethod, hie, maybeMatchName]

/-- C7: reindexing to an index equal in content to the current one
short-circuits: with copy disabled it returns the series itself, and with copy
it returns an observably equal shallow copy; no join is materialized. -/
theorem claim_C7_reindex_equal_index [DecidableEq L] (s : Series L V) (t : List L)
    (he : s.index = t) :
    s.reindex t false = s ∧ s.reindex t true = s := by
  subst he
  constructor <;> simp [Series.reindex]

/-- Witness for C7 at a concrete series. -/
theorem claim_C7_reindex_equal_index_witness :
    (Series.mk [some (1:Int), some 2] [(0:Nat), 1] none).index = [0, 1]
    ∧ ((Series.mk [some (1:Int), some 2] [(0:Nat), 1] none).reindex [0, 1] false
          = Series.mk [some 1, some 2] [0, 1] none
      ∧ (Series.mk [some (1:Int), some 2] [(0:Nat), 1] none).reindex [0, 1] true
          = Series.mk [some 1, some 2] [0, 1] none) :=
  ⟨rfl, claim_C7_reindex_equal_index _ [0, 1] rfl⟩

/-- C10: set_value with an absent label returns a new series with the label
and value appended at the end (leaving the receiver's content untouched in
this functional model); with a present label it writes the value at the
label's position, keeping the index and the length unchanged. -/
theorem claim_C10_set_value [DecidableEq L] (s : Series L V) (l : L) (v : V) :
    (s.set_value l v).index = (if l ∈ s.index then s.index else s.index ++ [l])
    ∧ (s.set_value l v).values = (match posOf s.index l with
        | some i => s.values.set i (some v)
        | none => s.values ++ [some v])
    ∧ (s.set_value l v).name = s.name
    ∧ (s.set_value l v).values.length
        = (if l ∈ s.index then s.values.length else s.values.length + 1) := by
  cases hp : posOf s.index l with
  | none =>
    have hm := posOf_eq_none_iff.mp hp
    simp [Series.set_value, hp, hm]
  | some i =>
    have hm := posOf_mem hp
    simp [Series.set_value, hp, hm]

/-- C8 counterexample: on an integer-kind series `[1,2,3]`, fillna with a fill
value neither raises nor upcasts — the code returns the series unchanged with
the dtype still integer, contradicting the claimed raise-or-upcast policy. -/
theorem claim_C8_counterexample :
    Series.fillnaValue DType.int64
        (Series.mk [some (1:Int), some 2, some 3] [(0:Nat), 1, 2] none) 0
      = (DType.int64, Series.mk [some 1, some 2, some 3] [0, 1, 2] none) := rfl

/-- C8 amended: can_hold_na is false exactly for the integer kind; fillna on a
series whose kind cannot hold missing returns the series unchanged (a copy, or
self when inplace) with the dtype unchanged — it neither raises nor upcasts. -/
theorem claim_C8_can_hold_na (dt : DType) (s : Series L V) (v : V)
    (hc : canHoldNA dt = false) :
    dt = DType.int64 ∧ Series.fillnaValue dt s v = (dt, s)
    ∧ (∀ d : DType, canHoldNA d = false ↔ d = DType.int64) := by
  have hdt : dt = DType.int64 := by cases dt <;> simp_all [canHoldNA, isIntegerDtype]
  refine ⟨hdt, ?_, fun d => by cases d <;> simp [canHoldNA, isIntegerDtype]⟩
  simp [Series.fillnaValue, hc]

/-- Witness for the amended C8 at the integer kind and a concrete series. -/
theorem claim_C8_can_hold_na_witness :
    canHoldNA DType.int64 = false
    ∧ (DType.int64 = DType.int64
      ∧ Series.fillnaValue DType.int64 (Series.mk [some (1:Int), none] [(0:Nat), 1] none) 5
          = (DType.int64, Series.mk [some 1, none] [0, 1] none)
      ∧ (∀ d : DType, canHoldNA d = false ↔ d = DType.int64)) :=
  ⟨by decide, claim_C8_can_hold_na _ _ _ (by decide)⟩

/-- C9: once plain label lookup has failed, an all-integer key list is
resolved as labels through a reindex exactly when the series' own index is
integer-typed, and otherwise is treated as physical positions gathering the
values positionally. -/
theorem claim_C9_integer_key_dispatch (s : Series PyVal V) (key : List PyVal)
    (hk : inferIsInteger key = true) :
    s.getWith key = (if inferIsInteger s.index then some (s.reindex key true)
      else s.getValuesPos (keyInts key)) := by
  simp [Series.getWith, hk]

/-- Witness for C9: a string-labelled series treats the integer key
positionally; an integer-labelled series treats it as labels (reindex). -/
theorem claim_C9_integer_key_dispatch_witness :
    inferIsInteger [PyVal.pint 0] = true
    ∧ ((Series.mk [some (10:Int), some 20] [PyVal.pstr "a", PyVal.pstr "b"] none).getWith
          [PyVal.pint 0]
        = (if inferIsInteger [PyVal.pstr "a", PyVal.pstr "b"] then
            some ((Series.mk [some (10:Int), some 20] [PyVal.pstr "a", PyVal.pstr "b"]
              none).reindex [PyVal.pint 0] true)
          else (Series.mk [some (10:Int), some 20] [PyVal.pstr "a", PyVal.pstr "b"]
              none).getValuesPos (keyInts [PyVal.pint 0])))
    ∧ (Series.mk [some (10:Int), some 20] [PyVal.pstr "a", PyVal.pstr "b"] none).getWith
          [PyVal.pint 0]
        = some (Series.mk [some 10] [PyVal.pstr "a"] none)
    ∧ (Series.mk [some (10:Int), some 20] [PyVal.pint 5, PyVal.pint 7] none).getWith
          [PyVal.pint 0]
        = some (Series.mk [none] [PyVal.pint 0] none) :=
  ⟨by decide, claim_C9_integer_key_dispatch _ _ (by decide), by decide, by decide⟩

/-- C5: combine_first has the union of the two label sets as its index, and at
every label of that union the value is A's union-reindexed value wherever that
is non-missing, else B's union-reindexed value. -/
theorem claim_C5_combine_first [DecidableEq L] (a b : Series L V)
    (hA : a.values.length = a.index.length)
    (hB : b.values.length = b.index.length)
    (hndA : a.index.Nodup) (hndB : b.index.Nodup) :
    (∀ l, l ∈ (a.combine_first b).index ↔ (l ∈ a.index ∨ l ∈ b.index))
    ∧ (∀ l, l ∈ (a.combine_first b).index →
        (a.combine_first b).lookup l
          = (if isnullE ((a.reindex (indexUnion a.index b.index) false).lookup l)
             then (b.reindex (indexUnion a.index b.index) false).lookup l
             else (a.reindex (indexUnion a.index b.index) false).lookup l)) := by
  have hu : a.combine_first b = Series.mk
      (List.zipWith (fun t o => if isnullE t then o else t)
        ((indexUnion a.index b.index).map a.lookup)
        ((indexUnion a.index b.index).map b.lookup))
      (indexUnion a.index b.index) (maybeMatchName a b) := by
    simp only [Series.combine_first]
    rw [(reindex_result a (indexUnion a.index b.index) false hA hndA).1,
        (reindex_result b (indexUnion a.index b.index) false hB hndB).1]
  constructor
  · intro l
    rw [hu]
    show l ∈ indexUnion a.index b.index ↔ _
    exact mem_indexUnion
  · intro l hl
    have hl' : l ∈ indexUnion a.index b.index := by
      rw [hu] at hl
      exact hl
    have hrl : (a.combine_first b).lookup l
        = if l ∈ indexUnion a.index b.index
          then (if isnullE (a.lookup l) then b.lookup l else a.lookup l) else none := by
      rw [hu]
      exact fetch_zip_mapLookup a b _ _ l
    rw [hrl, if_pos hl']
    rw [reindex_lookup a _ false hA hndA l, reindex_lookup b _ false hB hndB l,
      if_pos hl', if_pos hl']

/-- Witness for C5 at concrete overlapping series: A = [0:1, 1:missing],
B = [1:7, 2:8]; the union index is [0,1,2] and the combined values are
[1, 7, 8]. -/
theorem claim_C5_combine_first_witness :
    (Series.mk [some (1:Int), none] [(0:Nat), 1] none).values.length
        = (Series.mk [some (1:Int), none] [(0:Nat), 1] none).index.length
    ∧ (Series.mk [some (7:Int), some 8] [(1:Nat), 2] none).values.length
        = (Series.mk [some (7:Int), some 8] [(1:Nat), 2] none).index.length
    ∧ (Series.mk [some (1:Int), none] [(0:Nat), 1] none).index.Nodup
    ∧ (Series.mk [some (7:Int), some 8] [(1:Nat), 2] none).index.Nodup
    ∧ ((Series.mk [some (1:Int), none] [(0:Nat), 1] none).combine_first
        (Series.mk [some (7:Int), some 8] [(1:Nat), 2] none)).index = [0, 1, 2]
    ∧ ((Series.mk [some (1:Int), none] [(0:Nat), 1] none).combine_first
        (Series.mk [some (7:Int), some 8] [(1:Nat), 2] none)).values
        = [some 1, some 7, some 8]
    ∧ (∀ l, l ∈ ((Series.mk [some (1:Int), none] [(0:Nat), 1] none).combine_first
        (Series.mk [some (7:Int), some 8] [(1:Nat), 2] none)).index →
        ((Series.mk [some (1:Int), none] [(0:Nat), 1] none).combine_first
          (Series.mk [some (7:Int), some 8] [(1:Nat), 2] none)).lookup l
          = (if isnullE (((Series.mk [some (1:Int), none] [(0:Nat), 1] none).reindex
              (indexUnion [(0:Nat), 1] [(1:Nat), 2]) false).lookup l)
             then ((Series.mk [some (7:Int), some 8] [(1:Nat), 2] none).reindex
              (indexUnion [(0:Nat), 1] [(1:Nat), 2]) false).lookup l
             else ((Series.mk [some (1:Int), none] [(0:Nat), 1] none).reindex
              (indexUnion [(0:Nat), 1] [(1:Nat), 2]) false).lookup l)) := by
  refine ⟨rfl, rfl, by decide, by decide, by decide, by decide, ?_⟩
  exact (claim_C5_combine_first (Series.mk [some (1:Int), none] [(0:Nat), 1] none)
    (Series.mk [some (7:Int), some 8] [(1:Nat), 2] none) rfl rfl (by decide) (by decide)).2

/-! ### Lemmas for the order (sort-by-value) claim -/

theorem isnullE_eq_not_isSome (x : Option V) : isnullE x = !x.isSome := by
  cases x <;> rfl

theorem zip_of_map_pair {A B : Type} (xs : List (A × B)) :
    (xs.map Prod.fst).zip (xs.map Prod.snd) = xs := by
  rw [List.zip_map']
  simp

/-- Wrapping the unwrapped non-missing pairs back up is the same as filtering
the present pairs. -/
theorem goodPairs_map_back (ps : List (L × Option V)) :
    (ps.filterMap (fun p => p.2.map (fun v => (p.1, v)))).map (fun q => (q.1, some q.2))
      = ps.filter (fun p => p.2.isSome) := by
  induction ps with
  | nil => rfl
  | cons h t ih =>
    obtain ⟨x, y⟩ := h
    cases y with
    | none => simp [List.filterMap_cons, List.filter_cons, ih]
    | some w => simp [List.filterMap_cons, List.filter_cons, ih]

theorem orderArranged_true_true [LinearOrder V] (ps : List (L × Option V)) :
    orderArranged ps true true
      = ((ps.filterMap (fun p => p.2.map (fun v => (p.1, v)))).insertionSort
          (fun p q => p.2 ≤ q.2)).map (fun p => (p.1, some p.2))
        ++ ps.filter (fun p => isnullE p.2) := rfl

/-- The arrangement of `order` is a permutation of the original pairs. -/
theorem orderArranged_perm [LinearOrder V] (ps : List (L × Option V)) :
    orderArranged ps true true ~ ps := by
  rw [orderArranged_true_true]
  have h1 : ((ps.filterMap (fun p => p.2.map (fun v => (p.1, v)))).insertionSort
      (fun p q => p.2 ≤ q.2)).map (fun p => (p.1, some p.2))
      ~ ps.filter (fun p => p.2.isSome) := by
    rw [← goodPairs_map_back ps]
    exact (List.perm_insertionSort _ _).map _
  have h2 : ps.filter (fun p => isnullE p.2)
      = ps.filter (fun p => !(p.2.isSome)) := by
    apply List.filter_congr
    intro x _
    exact isnullE_eq_not_isSome x.2
  calc ((ps.filterMap (fun p => p.2.map (fun v => (p.1, v)))).insertionSort
      (fun p q => p.2 ≤ q.2)).map (fun p => (p.1, some p.2))
      ++ ps.filter (fun p => isnullE p.2)
      ~ ps.filter (fun p => p.2.isSome) ++ ps.filter (fun p => isnullE p.2) :=
        h1.append_right _
    _ = ps.filter (fun p => p.2.isSome) ++ ps.filter (fun p => !(p.2.isSome)) := by rw [h2]
    _ ~ ps := List.filter_append_perm _ ps

/-- Stability of the arrangement: a pair of equal values keeps its original
relative order. -/
theorem orderArranged_stable [LinearOrder V] (ps : List (L × Option V))
    (l1 l2 : L) (v : V) (h : [(l1, some v), (l2, some v)] <+ ps) :
    [(l1, some v), (l2, some v)] <+ orderArranged ps true true := by
  rw [orderArranged_true_true]
  have h1 : [(l1, v), (l2, v)] <+ ps.filterMap (fun p => p.2.map (fun v => (p.1, v))) := by
    have h0 := h.filterMap (fun p => p.2.map (fun v => (p.1, v)))
    simpa using h0
  have h2 : [(l1, v), (l2, v)] <+ (ps.filterMap (fun p => p.2.map
      (fun v => (p.1, v)))).insertionSort (fun p q => p.2 ≤ q.2) :=
    List.pair_sublist_insertionSort (le_refl v) h1
  have h3 := h2.map (fun p => ((p.1 : L), some p.2))
  refine List.Sublist.trans ?_ (List.sublist_append_left _ _)
  simpa using h3

/-- C6: `order(na_last=True, ascending=True)` is a label-value-pair-preserving
permutation in which all non-missing values come first in ascending sorted
order, stably (equal values keep their original relative order), followed by
all the missing values. -/
theorem claim_C6_order_sort_by_value [LinearOrder V] (s : Series L V)
    (hlen : s.values.length = s.index.length) :
    ((s.order true true).index.zip (s.order true true).values ~ s.index.zip s.values)
    ∧ (∃ g bads, (s.order true true).values = g ++ bads
        ∧ (∀ x ∈ g, x.isSome = true)
        ∧ (∀ x ∈ bads, x = none)
        ∧ g.Pairwise (fun x y => ∀ u w, x = some u → y = some w → u ≤ w))
    ∧ (∀ l1 l2 v, [(l1, some v), (l2, some v)] <+ s.index.zip s.values →
        [(l1, some v), (l2, some v)] <+
          (s.order true true).index.zip (s.order true true).values) := by
  have hzip : (s.order true true).index.zip (s.order true true).values
      = orderArranged (s.index.zip s.values) true true := by
    exact zip_of_map_pair _
  refine ⟨?_, ?_, ?_⟩
  · rw [hzip]
    exact orderArranged_perm _
  · refine ⟨(((s.index.zip s.values).filterMap (fun p => p.2.map (fun v => (p.1, v)))).insertionSort
        (fun p q => p.2 ≤ q.2)).map (fun p => some p.2),
      ((s.index.zip s.values).filter (fun p => isnullE p.2)).map Prod.snd, ?_, ?_, ?_, ?_⟩
    · show (orderArranged (s.index.zip s.values) true true).map Prod.snd = _
      rw [orderArranged_true_true, List.map_append, List.map_map]
      rfl
    · intro x hx
      rw [List.mem_map] at hx
      obtain ⟨p, -, rfl⟩ := hx
      rfl
    · intro x hx
      rw [List.mem_map] at hx
      obtain ⟨p, hp, rfl⟩ := hx
      rw [List.mem_filter] at hp
      have := hp.2
      simpa [isnullE, Option.isNone_iff_eq_none] using this
    · haveI : IsTotal (L × V) (fun p q : L × V => p.2 ≤ q.2) :=
        ⟨fun a b => le_total a.2 b.2⟩
      haveI : IsTrans (L × V) (fun p q : L × V => p.2 ≤ q.2) :=
        ⟨fun _ _ _ hab hbc => le_trans hab hbc⟩
      have hs := List.sorted_insertionSort (fun p q : L × V => p.2 ≤ q.2)
        ((s.index.zip s.values).filterMap (fun p => p.2.map (fun v => (p.1, v))))
      rw [List.pairwise_map]
      refine hs.imp ?_
      intro p q hpq u w hu hw
      cases hu
      cases hw
      exact hpq
  · intro l1 l2 v h
    rw [hzip]
    exact orderArranged_stable _ l1 l2 v h

/-- Witness for C6 at the spec's scenario `[a:3, b:1, c:2]`: the sorted series
has labels `[b, c, a]` and values `[1, 2, 3]`. -/
theorem claim_C6_order_sort_by_value_witness :
    (Series.mk [some (3:Int), some 1, some 2] ["a", "b", "c"] none).values.length
        = (Series.mk [some (3:Int), some 1, some 2] ["a", "b", "c"] none).index.length
    ∧ ((Series.mk [some (3:Int), some 1, some 2] ["a", "b", "c"] none).order true true).index
        = ["b", "c", "a"]
    ∧ ((Series.mk [some (3:Int), some 1, some 2] ["a", "b", "c"] none).order true true).values
        = [some 1, some 2, some 3]
    ∧ (((Series.mk [some (3:Int), some 1, some 2] ["a", "b", "c"] none).order
          true true).index.zip
        ((Series.mk [some (3:Int), some 1, some 2] ["a", "b", "c"] none).order
          true true).values
      ~ (Series.mk [some (3:Int), some 1, some 2] ["a", "b", "c"] none).index.zip
        (Series.mk [some (3:Int), some 1, some 2] ["a", "b", "c"] none).values) := by
  refine ⟨rfl, by rfl, by rfl, ?_⟩
  exact (claim_C6_order_sort_by_value
    (Series.mk [some (3:Int), some 1, some 2] ["a", "b", "c"] none) rfl).1

/-! ### Lemmas for the length invariant claim -/

theorem arithMethod_of_index_ne [DecidableEq L] [LinearOrder L] (a b : Series L V)
    (f : V → V → V) (hie : ¬a.index = b.index) :
    a.arithMethod b f = Series.mk
      (List.zipWith (liftNA f)
        ((sortedUnion a.index b.index).map a.lookup)
        ((sortedUnion a.index b.index).map b.lookup))
      (sortedUnion a.index b.index) (maybeMatchName a b) := by
  unfold Series.arithMethod joinOuter
  simp only [if_neg hie]
  rw [take1d_map_posOf, take1d_map_posOf]

theorem alignOuter_of_index_eq [DecidableEq L] [LinearOrder L] (a b : Series L V)
    (hie : a.index = b.index) :
    a.alignOuter b = (a, b) := by
  unfold Series.alignOuter joinOuter Series.reindexIndexer
  rw [if_pos hie]

/-- The reindexed buffer has the target's length and the target as index
(no uniqueness assumption needed). -/
theorem reindex_length [DecidableEq L] (s : Series L V) (t : List L) (c : Bool)
    (hlen : s.values.length = s.index.length) :
    (s.reindex t c).values.length = t.length ∧ (s.reindex t c).index = t := by
  unfold Series.reindex
  by_cases he : s.index = t
  · rw [if_pos he]
    cases c
    · exact ⟨by show s.values.length = t.length; rw [hlen, he], he⟩
    · exact ⟨by show s.values.length = t.length; rw [hlen, he], rfl⟩
  · rw [if_neg he]
    by_cases h0 : s.index.length = 0
    · rw [if_pos h0]
      exact ⟨by simp, rfl⟩
    · rw [if_neg h0]
      exact ⟨by simp [take1d], rfl⟩

theorem gatherAt_length {xs : List W} :
    ∀ {idx : List Nat} {l : List W}, gatherAt xs idx = some l → l.length = idx.length := by
  intro idx
  induction idx with
  | nil =>
    intro l h
    rw [gatherAt] at h
    cases h
    rfl
  | cons i is ih =>
    intro l h
    rw [gatherAt] at h
    cases hxi : xs.get? i <;> rw [hxi] at h
    · exact absurd h (by simp)
    · cases hrest : gatherAt xs is <;> rw [hrest] at h
      · exact absurd h (by simp)
      · cases h
        simp [ih hrest]

/-- C2: every operation that produces a new Series — the elementwise operator
families, the flexible binop, reindex, align, fillna, order, sort_index,
shift, take, combine, combine_first, dropna, map and apply — returns a Series
whose value buffer and label index have equal length.  The alignment-based
operations accept inputs of any two lengths; only the no-alignment comparison
and boolean wrappers need equal buffer lengths (numpy raises otherwise), so
only those two conjuncts carry that hypothesis. -/
theorem claim_C2_length_invariant [DecidableEq L] [LinearOrder L] [LinearOrder V]
    (a b : Series L V) (f : V → V → V)
    (g : Option V → Option V → Option Bool)
    (gb : Option V → Option V → Option V)
    (k : Option V → Option V → Option V)
    (m : Option V → Option W)
    (fill fv : Option V) (t : List L) (c : Bool) (dt : DType) (v : V)
    (p : Int) (idx : List Nat) (naLast ascending : Bool)
    (hA : a.values.length = a.index.length)
    (hB : b.values.length = b.index.length) :
    lenInvariant (a.arithMethod b f)
    ∧ (a.values.length = b.values.length → lenInvariant (a.compMethod b g))
    ∧ (a.values.length = b.values.length → lenInvariant (a.boolMethod b gb))
    ∧ lenInvariant (a.binop b f fill)
    ∧ lenInvariant (a.reindex t c)
    ∧ lenInvariant (a.alignOuter b).1
    ∧ lenInvariant (a.alignOuter b).2
    ∧ lenInvariant (Series.fillnaValue dt a v).2
    ∧ lenInvariant (a.order naLast ascending)
    ∧ lenInvariant (a.sort_index ascending)
    ∧ lenInvariant (a.shift p)
    ∧ (∀ tk, a.takeOp idx = some tk → lenInvariant tk)
    ∧ lenInvariant (a.combine b k fv)
    ∧ lenInvariant (a.combine_first b)
    ∧ lenInvariant a.dropna
    ∧ lenInvariant (a.mapOp m)
    ∧ lenInvariant (a.applyOp m) := by
  have hIdx : a.index.length = b.index.length ∨ ¬a.index = b.index := by
    by_cases hie : a.index = b.index
    · exact Or.inl (by rw [hie])
    · exact Or.inr hie
  refine ⟨?_, ?_, ?_, ?_, ?_, ?_, ?_, ?_, ?_, ?_, ?_, ?_, ?_, ?_, ?_, ?_, ?_⟩
  · by_cases hie : a.index = b.index
    · rw [arithMethod_of_index_eq a b f hie]
      have hl := congrArg List.length hie
      simp only [lenInvariant, List.length_zipWith]
      omega
    · rw [arithMethod_of_index_ne a b f hie]
      simp [lenInvariant]
  · intro hAB
    simp only [lenInvariant, Series.compMethod, List.length_zipWith]
    omega
  · intro hAB
    simp only [lenInvariant, Series.boolMethod, List.length_zipWith]
    omega
  · by_cases hie : a.index = b.index
    · rw [binop_of_index_eq a b f fill hie]
      have hl := congrArg List.length hie
      simp only [lenInvariant, List.length_zipWith]
      omega
    · rw [binop_of_index_ne a b f fill hie]
      simp [lenInvariant]
  · obtain ⟨h1, h2⟩ := reindex_length a t c hA
    simp only [lenInvariant, h1, h2]
  · by_cases hie : a.index = b.index
    · rw [alignOuter_of_index_eq a b hie]
      exact hA
    · rw [alignOuter_of_index_ne a b hie]
      simp [lenInvariant]
  · by_cases hie : a.index = b.index
    · rw [alignOuter_of_index_eq a b hie]
      exact hB
    · rw [alignOuter_of_index_ne a b hie]
      simp [lenInvariant]
  · by_cases hc : canHoldNA dt <;> simp [Series.fillnaValue, hc, lenInvariant, hA]
  · simp [lenInvariant, Series.order]
  · simp only [lenInvariant, Series.sort_index]
    simp
  · unfold Series.shift
    by_cases hp0 : p = 0
    · rw [if_pos hp0]
      exact hA
    · rw [if_neg hp0]
      by_cases hpp : 0 < p
      · rw [if_pos hpp]
        simp only [lenInvariant, List.length_append, List.length_replicate,
          List.length_take]
        omega
      · rw [if_neg hpp]
        simp only [lenInvariant, List.length_append, List.length_replicate,
          List.length_drop]
        omega
  · intro tk h
    unfold Series.takeOp at h
    cases hgi : gatherAt a.index idx <;> rw [hgi] at h
    · exact absurd h (by simp)
    · cases hgv : gatherAt a.values idx <;> rw [hgv] at h
      · exact absurd h (by simp)
      · cases h
        simp [lenInvariant, gatherAt_length hgi, gatherAt_length hgv]
  · simp [lenInvariant, Series.combine]
  · simp only [lenInvariant, Series.combine_first, List.length_zipWith,
      (reindex_length a _ false hA).1, (reindex_length b _ false hB).1]
    simp
  · simp [lenInvariant, Series.dropna]
  · simp [lenInvariant, Series.mapOp, hA]
  · simp [lenInvariant, Series.applyOp, hA]

/-- Witness for C2: a two-element and a three-element series (different
lengths) through the alignment-based operations, and an equal-length pair
through the no-alignment comparison wrapper. -/
theorem claim_C2_length_invariant_witness :
    (Series.mk [some (1:Int), none] [(0:Nat), 1] none).values.length
        = (Series.mk [some (1:Int), none] [(0:Nat), 1] none).index.length
    ∧ (Series.mk [some (2:Int), some 3, none] [(1:Nat), 2, 3] none).values.length
        = (Series.mk [some (2:Int), some 3, none] [(1:Nat), 2, 3] none).index.length
    ∧ lenInvariant ((Series.mk [some (1:Int), none] [(0:Nat), 1] none).arithMethod
        (Series.mk [some (2:Int), some 3, none] [(1:Nat), 2, 3] none) (· + ·))
    ∧ lenInvariant ((Series.mk [some (1:Int), none] [(0:Nat), 1] none).combine_first
        (Series.mk [some (2:Int), some 3, none] [(1:Nat), 2, 3] none))
    ∧ lenInvariant ((Series.mk [some (1:Int), none] [(0:Nat), 1] none).compMethod
        (Series.mk [some (2:Int), some 3] [(1:Nat), 2] none)
        (fun x y => some (x.isSome && y.isSome))) := by
  have h := claim_C2_length_invariant (Series.mk [some (1:Int), none] [(0:Nat), 1] none)
    (Series.mk [some (2:Int), some 3, none] [(1:Nat), 2, 3] none) (· + ·)
    (fun x y => some (x.isSome && y.isSome)) (fun x _ => x) (fun x _ => x)
    (fun x : Option Int => x) none none [5, 0] false DType.float64 9 1 [1, 0] true true
    rfl rfl
  obtain ⟨h1, -, -, -, -, -, -, -, -, -, -, -, -, h14, -, -, -⟩ := h
  have h2 := (claim_C2_length_invariant (Series.mk [some (1:Int), none] [(0:Nat), 1] none)
    (Series.mk [some (2:Int), some 3] [(1:Nat), 2] none) (· + ·)
    (fun x y => some (x.isSome && y.isSome)) (fun x _ => x) (fun x _ => x)
    (fun x : Option Int => x) none none [5, 0] false DType.float64 9 1 [1, 0] true true
    rfl rfl).2.1 rfl
  exact ⟨rfl, rfl, h1, h14, h2⟩

end PandasSeries
